import Mathlib

/-!
Verification of the doc2md document-structure transformation pipeline
(docx-to-markdown converter with frontmatter).

The JavaScript sources are shallowly embedded: each regular-expression
rewrite of the Postprocessor / Preprocessor is implemented as a
left-to-right character scanner that mirrors the semantics of the
concrete JS regex (leftmost match, greedy quantifiers, global scanning
that resumes after each match).  Stateful code (the image handler's
counter, the sequential image-write loop) is embedded as explicit
state threading, and fallible filesystem / external-library calls are
parameters in an `Except String` error monad.
-/

namespace TextTools

/-- Characters matched by the JavaScript regex class `\s`
(WhiteSpace plus LineTerminator productions). -/
def jsWs (c : Char) : Bool :=
  c == ' ' || c == '\t' || c == '\n' || c == '\r' || c == '\x0b' || c == '\x0c' ||
  c == '\u00a0' || c == '\u1680' || c == '\u2000' || c == '\u2001' || c == '\u2002' ||
  c == '\u2003' || c == '\u2004' || c == '\u2005' || c == '\u2006' || c == '\u2007' ||
  c == '\u2008' || c == '\u2009' || c == '\u200a' || c == '\u2028' || c == '\u2029' ||
  c == '\u202f' || c == '\u205f' || c == '\u3000' || c == '\ufeff'

/-- JavaScript word characters (`\w`, used by the `\b` assertion). -/
def isWordChar (c : Char) : Bool :=
  c.isAlpha || c.isDigit || c == '_'

/-- Length of the maximal run of newline characters at the head of the list. -/
def newlineRun : List Char → Nat
  | [] => 0
  | c :: r => if c == '\n' then newlineRun r + 1 else 0

/-- Length of the maximal run of `#` characters at the head of the list. -/
def hashRun : List Char → Nat
  | [] => 0
  | c :: r => if c == '#' then hashRun r + 1 else 0

/-- Generic left-to-right global-regex rewriting driver.
`step l = some (emit, k)` means the pattern matches at the head of `l`,
consuming `k + 1` characters and emitting `emit`; scanning resumes after
the consumed characters, exactly like a JS `String.replace` with a `g` regex.
The `skip` argument counts consumed characters still to be passed over. -/
def scanStep (step : List Char → Option (List Char × Nat)) : List Char → Nat → List Char
  | [], _ => []
  | _ :: rest, skip + 1 => scanStep step rest skip
  | c :: rest, 0 =>
    match step (c :: rest) with
    | some (emit, k) => emit ++ scanStep step rest k
    | none => c :: scanStep step rest 0

/-- Like `scanStep`, additionally tracking the previous character of the
original text so a step can evaluate the `\b` word-boundary assertion. -/
def scanStepP (step : Option Char → List Char → Option (List Char × Nat)) :
    List Char → Option Char → Nat → List Char
  | [], _, _ => []
  | c :: rest, _, skip + 1 => scanStepP step rest (some c) skip
  | c :: rest, prev, 0 =>
    match step prev (c :: rest) with
    | some (emit, k) => emit ++ scanStepP step rest (some c) k
    | none => c :: scanStepP step rest (some c) 0

/-- Postprocess rule 1, `markdown.replace(/\n{3,}/g, '\n\n')`:
a maximal run of three or more newlines collapses to exactly two. -/
def step1 (l : List Char) : Option (List Char × Nat) :=
  let n := newlineRun l
  if 3 ≤ n then some (['\n', '\n'], n - 1) else none

/-- Postprocess rule 2, `markdown.replace(/\n(#{1,6}\s)/g, '\n\n$1')`:
a newline immediately followed by 1–6 `#` and a `\s` character gets an
extra newline inserted.  The `#{1,6}` quantifier can only succeed on the
full `#`-run (a shorter take leaves `#` where `\s` is required). -/
def step2 : List Char → Option (List Char × Nat)
  | [] => none
  | c :: r =>
    if c == '\n' then
      let m := hashRun r
      if 1 ≤ m ∧ m ≤ 6 then
        match r.drop m with
        | w :: _ =>
          if jsWs w then
            some ('\n' :: '\n' :: (List.replicate m '#' ++ [w]), m + 1)
          else none
        | [] => none
      else none
    else none

/-- Postprocess rule 3, `markdown.replace(/(#{1,6}\s.+)\n([^\n])/g, '$1\n\n$2')`:
after a heading-like fragment followed by a single newline and a non-blank
character, a blank line is inserted.  `.` never matches a newline, so the
`.+` group is the maximal newline-free run and no backtracking alternative
can succeed when the follow-up characters fail. -/
def step3 (l : List Char) : Option (List Char × Nat) :=
  let m := hashRun l
  if 1 ≤ m ∧ m ≤ 6 then
    match l.drop m with
    | w :: r2 =>
      if jsWs w then
        let t := r2.takeWhile (· != '\n')
        if 1 ≤ t.length then
          match r2.drop t.length with
          | '\n' :: c :: _ =>
            if c != '\n' then
              some (List.replicate m '#' ++ w :: t ++ '\n' :: '\n' :: [c],
                    m + t.length + 2)
            else none
          | _ => none
        else none
      else none
    | [] => none
  else none

/-- Postprocess rule 4, `markdown.replace(/\n(\|[^\n]+\|)\n([^\|])/g, '\n$1\n\n$2')`:
after a pipe-delimited table line followed by a non-pipe character, a blank
line is inserted.  The greedy `[^\n]+\|` forces the group to end at the last
character of the line, so the line must begin and end with `|`. -/
def step4 : List Char → Option (List Char × Nat)
  | [] => none
  | c0 :: r =>
    if c0 == '\n' then
      let line := r.takeWhile (· != '\n')
      if 3 ≤ line.length ∧ line.head? = some '|' ∧ line.getLast? = some '|' then
        match r.drop line.length with
        | '\n' :: c :: _ =>
          if c != '|' then
            some ('\n' :: line ++ '\n' :: '\n' :: [c], line.length + 2)
          else none
        | _ => none
      else none
    else none

/-- Helper for rule 5: parse `_` followed by one or more digits followed by
`_`, returning the replacement text (without the trailing underscore) and
the number of consumed characters. -/
def underDigits : List Char → Option (List Char × Nat)
  | [] => none
  | c :: r =>
    if c == '_' then
      let ds := r.takeWhile Char.isDigit
      if 1 ≤ ds.length then
        match r.drop ds.length with
        | '_' :: _ => some ('_' :: ds, ds.length + 2)
        | _ => none
      else none
    else none

/-- Postprocess rule 5, `markdown.replace(/([A-Z][a-z]?)_(\d+)_/g, '$1_$2')`:
an element symbol followed by an underscore-delimited digit group drops the
redundant trailing underscore. -/
def step5 : List Char → Option (List Char × Nat)
  | c :: r =>
    if c.isUpper then
      match r with
      | x :: r2 =>
        if x.isLower then (underDigits r2).map (fun p => (c :: x :: p.1, p.2 + 1))
        else (underDigits r).map (fun p => (c :: p.1, p.2))
      | [] => none
    else none
  | [] => none

/-- Greedy parser for the `([A-Z][a-z]?\d*)+\b` tail of the chemical-formula
regex, entered immediately after a group's uppercase letter was consumed.
`st = 0` right after an uppercase letter (a lowercase letter is allowed),
`st = 1` after a lowercase letter or inside a digit run.  Returns the number
of further characters consumed when the whole pattern (including the closing
word boundary) succeeds.  All backtracking alternatives of the JS regex end
between two word characters and therefore fail the boundary, so this greedy
parse is exact. -/
def formulaLoop : List Char → Nat → Option Nat
  | [], _ => some 0
  | c :: rest, st =>
    if c.isUpper then (formulaLoop rest 0).map (· + 1)
    else if c.isDigit then (formulaLoop rest 1).map (· + 1)
    else if st = 0 ∧ c.isLower then (formulaLoop rest 1).map (· + 1)
    else if isWordChar c then none
    else some 0

/-- Parser for the remainder of the first group's digit run (`\d+` already
holds one digit); afterwards at least one further `[A-Z][a-z]?\d*` group is
required. -/
def afterFirstDigits : List Char → Option Nat
  | [] => none
  | c :: rest =>
    if c.isDigit then (afterFirstDigits rest).map (· + 1)
    else if c.isUpper then (formulaLoop rest 0).map (· + 1)
    else none

/-- Parser for the mandatory `(\d+)` group: one digit, then the rest of the
digit run and the subsequent-group loop. -/
def formulaFirstDigitStart : List Char → Option Nat
  | [] => none
  | e :: r3 => if e.isDigit then (afterFirstDigits r3).map (· + 1) else none

/-- Parser entered after the leading `[A-Z]`: the optional `[a-z]`, then the
mandatory digit group and the subsequent-group loop.  If the optional
lowercase is taken but no digit follows, backtracking cannot help (the
lowercase letter is not a digit), so the greedy choice is exact. -/
def formulaFirst : List Char → Option Nat
  | [] => none
  | x :: r2 =>
    if x.isLower then (formulaFirstDigitStart r2).map (· + 1)
    else formulaFirstDigitStart (x :: r2)

/-- Total number of characters matched by the chemical-formula regex
`\b([A-Z][a-z]?)(\d+)([A-Z][a-z]?\d*)+\b` when anchored at the head of the
list (the leading word boundary is checked by the caller). -/
def matchFormulaLen : List Char → Option Nat
  | [] => none
  | c :: rest => if c.isUpper then (formulaFirst rest).map (· + 1) else none

/-- Postprocess rule 6,
`markdown.replace(/\b([A-Z][a-z]?)(\d+)([A-Z][a-z]?\d*)+\b/g, '$$$&$$')`:
a chemical-formula-shaped token at a word boundary is wrapped in `$ ... $`. -/
def step6 (prev : Option Char) (l : List Char) : Option (List Char × Nat) :=
  let boundary := match prev with | none => true | some p => ¬ isWordChar p
  if boundary then
    match matchFormulaLen l with
    | some n => some ('$' :: l.take n ++ ['$'], n - 1)
    | none => none
  else none

def applyRule1 (l : List Char) : List Char := scanStep step1 l 0
def applyRule2 (l : List Char) : List Char := scanStep step2 l 0
def applyRule3 (l : List Char) : List Char := scanStep step3 l 0
def applyRule4 (l : List Char) : List Char := scanStep step4 l 0
def applyRule5 (l : List Char) : List Char := scanStep step5 l 0
def applyRule6 (l : List Char) : List Char := scanStepP step6 l none 0

/-- Embedding of `String.prototype.trim`: strip leading and trailing whitespace. -/
def jsTrim (l : List Char) : List Char :=
  ((l.dropWhile jsWs).reverse.dropWhile jsWs).reverse

/-- Embedding of `postprocessMarkdown` from the converter: the six ordered regex rewrites
followed by a trim. -/
def postprocessMarkdown (markdown : String) : String :=
  (jsTrim (applyRule6 (applyRule5 (applyRule4 (applyRule3 (applyRule2
    (applyRule1 markdown.toList))))))).asString


/-! ## Preprocessor (`preprocessHtml`) -/

/-- Index of the last newline in the list, if any. -/
def lastNewlinePos : List Char → Option Nat
  | [] => none
  | c :: rest =>
    match lastNewlinePos rest with
    | some j => some (j + 1)
    | none => if c == '\n' then some 0 else none

/-- Preprocess rule 1, `html.replace(/\n\s*\n\s*\n/g, '\n\n')`: a whitespace
run containing at least three newlines collapses to a single blank line.
Greedy matching makes the match extend exactly to the last newline of the
maximal whitespace run starting at the leading newline. -/
def stepPreWs (l : List Char) : Option (List Char × Nat) :=
  match l with
  | '\n' :: _ =>
    let w := l.takeWhile jsWs
    if 3 ≤ w.count '\n' then
      match lastNewlinePos w with
      | some j => some (['\n', '\n'], j)
      | none => none
    else none
  | _ => none

def eqSpanOpen : List Char := "<span class=\"equation\">".toList

def eqSpanClose : List Char := "</span>".toList

/-- Preprocess rule 2,
`html.replace(/<span class="equation">([^<]+)<\/span>/g, '$$$1$$')`:
an equation span becomes its content wrapped in inline math delimiters. -/
def stepEq (l : List Char) : Option (List Char × Nat) :=
  if eqSpanOpen.isPrefixOf l then
    let r := l.drop eqSpanOpen.length
    let content := r.takeWhile (· != '<')
    if 1 ≤ content.length ∧ eqSpanClose.isPrefixOf (r.drop content.length) then
      some ('$' :: content ++ ['$'],
            eqSpanOpen.length + content.length + eqSpanClose.length - 1)
    else none
  else none

/-- Embedding of `preprocessHtml` from the converter: whitespace collapsing, then
equation-span substitution. -/
def preprocessHtml (html : String) : String :=
  (scanStep stepEq (scanStep stepPreWs html.toList 0) 0).asString

/-! ## Paths (Node `path`, posix flavour, for the segment shapes the
converter produces) -/

def collapseSlashesAux : List Char → Bool → List Char
  | [], _ => []
  | c :: rest, prevSlash =>
    if c == '/' then
      if prevSlash then collapseSlashesAux rest true
      else '/' :: collapseSlashesAux rest true
    else c :: collapseSlashesAux rest false

/-- Embedding of `path.join` for two segments: empty segments are ignored and duplicate
separators collapse. -/
def pathJoin (a b : String) : String :=
  if a = "" then b
  else if b = "" then a
  else (collapseSlashesAux (a.toList ++ '/' :: b.toList) false).asString

def pathJoin3 (a b c : String) : String := pathJoin (pathJoin a b) c

/-- Embedding of `path.basename(p)`: the final segment, with trailing separators dropped. -/
def pathBasename (p : String) : String :=
  (((p.toList.reverse.dropWhile (· == '/')).takeWhile (· != '/')).reverse).asString

/-- Embedding of `path.basename(p, ext)`: additionally strips a matching extension suffix
unless the whole basename equals the extension. -/
def pathBasenameExt (p ext : String) : String :=
  let b := (pathBasename p).toList
  let e := ext.toList
  if b ≠ e ∧ e.isSuffixOf b then (b.take (b.length - e.length)).asString
  else b.asString

/-- Embedding of `path.extname(p)`: from the last `.` of the basename, empty when there is
no dot or the only dot is the leading character. -/
def pathExtname (p : String) : String :=
  let b := (pathBasename p).toList
  let afterDot := b.reverse.takeWhile (· != '.')
  if afterDot.length < b.length ∧ 1 ≤ b.length - afterDot.length - 1 then
    ('.' :: afterDot.reverse).asString
  else ""

/-! ## ImageSink (`createImageHandler`) -/

/-- One embedded image as delivered by the external structural converter to
the image callback: a declared content type and the base64 payload returned
by `element.read('base64')`. -/
structure MammothImage where
  contentType : String
  data : String
  deriving DecidableEq

/-- The record pushed by the image handler for each captured image. -/
structure ImageRecord where
  buffer : String
  path : String
  name : String
  placeholder : String
  deriving DecidableEq

/-- JS `String.prototype.split` on a single-character separator. -/
def splitOnChar (sep : Char) : List Char → List (List Char)
  | [] => [[]]
  | c :: rest =>
    let ps := splitOnChar sep rest
    if c == sep then [] :: ps
    else
      match ps with
      | p :: tail => (c :: p) :: tail
      | [] => [[c]]

/-- Embedding of `element.contentType.split('/')[1] || 'png'`. -/
def imageExtension (contentType : String) : String :=
  match (splitOnChar '/' contentType.toList).get? 1 with
  | some e => if e = [] then "png" else e.asString
  | none => "png"

/-- The record built by one invocation of the handler at a given counter. -/
def imageHandlerStep (outputDir documentName : String) (counter : Nat)
    (el : MammothImage) : ImageRecord :=
  let extension := imageExtension el.contentType
  let imageName := documentName ++ "-image-" ++ toString counter ++ "." ++ extension
  { buffer := el.data
    path := pathJoin3 outputDir "images" imageName
    name := imageName
    placeholder := "![Image " ++ toString counter ++ "](./images/" ++ imageName ++ ")" }

/-- The handler of `createImageHandler` invoked once per image in document
order, threading the mutable `imageCounter` (starting at 1) and accumulating
the `images` list. -/
def runImageHandler (outputDir documentName : String) :
    Nat → List MammothImage → List ImageRecord
  | _, [] => []
  | counter, el :: rest =>
    imageHandlerStep outputDir documentName counter el ::
      runImageHandler outputDir documentName (counter + 1) rest

/-- The `images` list collected by a fresh `createImageHandler` after the
external converter has called the handler on every embedded image. -/
def createImageHandlerImages (outputDir documentName : String)
    (elems : List MammothImage) : List ImageRecord :=
  runImageHandler outputDir documentName 1 elems

/-! ## Title extraction (`extractTitle`, `extractTitleFromFilename`) -/

/-- Index of the last character that is not a newline, if any. -/
def lastNonNewlinePos : List Char → Option Nat
  | [] => none
  | c :: rest =>
    match lastNonNewlinePos rest with
    | some j => some (j + 1)
    | none => if c != '\n' then some 0 else none

/-- Match `\s+(.+)$` (with the JS `m` flag) at the head of the list and
return the `(.+)` group.  The greedy `\s+` run may cross newlines; when the
run reaches the end of the input the engine backtracks so that `.+` captures
the last non-newline whitespace character, which still requires at least one
whitespace character before it. -/
def matchWsPlusLine (l : List Char) : Option (List Char) :=
  let w := l.takeWhile jsWs
  if w.length = 0 then none
  else
    match l.drop w.length with
    | c :: rest => some (c :: rest.takeWhile (· != '\n'))
    | [] =>
      match lastNonNewlinePos w with
      | some k => if 1 ≤ k then some [w.getD k ' '] else none
      | none => none

/-- Match `^#\s+(.+)$` at a line-start position. -/
def matchH1At (l : List Char) : Option (List Char) :=
  match l with
  | [] => none
  | c :: r => if c == '#' then matchWsPlusLine r else none

/-- Match `^#{1,6}\s+(.+)$` at a line-start position; the greedy hash
quantifier can only succeed on the full hash run. -/
def matchHnAt (l : List Char) : Option (List Char) :=
  let m := hashRun l
  if 1 ≤ m ∧ m ≤ 6 then matchWsPlusLine (l.drop m) else none

/-- Leftmost multiline match: try the matcher at every line start. -/
def findAtLineStarts (matcher : List Char → Option (List Char)) :
    List Char → Bool → Option (List Char)
  | [], _ => none
  | c :: rest, atStart =>
    if atStart then
      match matcher (c :: rest) with
      | some g => some g
      | none => findAtLineStarts matcher rest (c == '\n')
    else findAtLineStarts matcher rest (c == '\n')

/-- Embedding of `extractTitle` from the converter: first H1, else any heading (its
captured text trimmed), else the constant fallback. -/
def extractTitle (markdown : String) : String :=
  match findAtLineStarts matchH1At markdown.toList true with
  | some g => (jsTrim g).asString
  | none =>
    match findAtLineStarts matchHnAt markdown.toList true with
    | some g => (jsTrim g).asString
    | none => "Untitled Document"

/-- Embedding of `filename.replace(/\b\w/g, char => char.toUpperCase())`: uppercase every
word character at a word boundary.  Matched characters are ASCII word
characters, for which JS `toUpperCase` agrees with `Char.toUpper`. -/
def titleCaseAux : List Char → Option Char → List Char
  | [], _ => []
  | c :: rest, prev =>
    (if isWordChar c && (match prev with | none => true | some p => ! isWordChar p)
     then c.toUpper else c) :: titleCaseAux rest (some c)

/-- Embedding of `extractTitleFromFilename`: basename without extension, `-`/`_` replaced
by spaces, then title-cased. -/
def extractTitleFromFilename (filename : String) : String :=
  let basename := pathBasenameExt filename (pathExtname filename)
  (titleCaseAux (basename.toList.map
    (fun c => if c == '-' ∨ c == '_' then ' ' else c)) none).asString

/-- JS `a || b` for a possibly-undefined string `a`: `undefined` and the
empty string are falsy. -/
def jsOrStr (a : Option String) (b : String) : String :=
  match a with
  | some t => if t = "" then b else t
  | none => b

/-- Title resolution in `convertDocument`:
`frontmatter.title || extractTitle(result.markdown) || extractTitleFromFilename(inputPath)`. -/
def resolveTitle (frontmatterTitle : Option String) (markdown inputPath : String) : String :=
  jsOrStr frontmatterTitle
    (jsOrStr (some (extractTitle markdown)) (extractTitleFromFilename inputPath))

/-! ## FrontmatterComposer -/

/-- YAML values reachable through the FrontmatterFields domain. -/
inductive YamlVal where
  | str : String → YamlVal
  | num : Int → YamlVal
  | list : List String → YamlVal
  deriving DecidableEq

abbrev YamlObj := List (String × YamlVal)

/-- JS object-literal key insertion: a repeated key overwrites the existing
entry in place (the key keeps its original position); a new key is appended. -/
def objInsert (obj : YamlObj) (k : String) (v : YamlVal) : YamlObj :=
  if obj.any (fun p => p.1 == k) then
    obj.map (fun p => if p.1 == k then (k, v) else p)
  else obj ++ [(k, v)]

/-- Options record destructured by `generateFrontmatter`; `none` stands for
an absent (or `null`) property. -/
structure FrontmatterOptions where
  title : Option String := none
  sectionVal : Option String := none
  chapter : Option Int := none
  objectives : List String := []
  customFields : YamlObj := []
  deriving DecidableEq

/-- The recognized-field part of the `generateFrontmatter` object literal:
title (defaulted to "Untitled" when absent), then section / chapter when
non-null, then objectives when non-empty (the source key `section` is
spelled `sectionVal` because `section` is a Lean keyword). -/
def frontmatterBase (options : FrontmatterOptions) : YamlObj :=
  let title := options.title.getD "Untitled"
  let base : YamlObj := [("title", .str title)]
  let base := match options.sectionVal with
    | some s => objInsert base "section" (.str s)
    | none => base
  let base := match options.chapter with
    | some c => objInsert base "chapter" (.num c)
    | none => base
  if 0 < options.objectives.length then
    objInsert base "objectives" (.list options.objectives)
  else base

/-- Embedding of `generateFrontmatter` from the frontmatter module: the recognized fields
followed by the caller's custom fields spread last, with JS object-literal
duplicate-key semantics. -/
def generateFrontmatter (options : FrontmatterOptions) : YamlObj :=
  options.customFields.foldl (fun acc p => objInsert acc p.1 p.2) (frontmatterBase options)

def allDigits (l : List Char) : Bool := decide (l ≠ []) && l.all Char.isDigit

/-- Modelled from the spec: the external YAML encoder treats number-shaped
strings as needing quotes (they would otherwise re-parse as numbers). -/
def yamlNumberLike (s : String) : Bool :=
  let l := match s.toList with | '-' :: r => r | l => l
  match l.splitOn '.' with
  | [a] => allDigits a
  | [a, b] => allDigits a && allDigits b
  | _ => false

def yamlSpecialLike (s : String) : Bool :=
  s = "true" || s = "false" || s = "null" || s = "~" ||
  s = "yes" || s = "no" || s = "on" || s = "off"

/-- Modelled from the spec: whether the external YAML encoder must quote a
scalar string (empty, number- or keyword-like, structural characters, or
leading/trailing whitespace). -/
def scalarNeedsQuote (s : String) : Bool :=
  s = "" || yamlNumberLike s || yamlSpecialLike s ||
  s.toList.any (fun c => c == ':' || c == '#' || c == '"' || c == '\x27' ||
    c == '\n' || c == '[' || c == ']' || c == '{' || c == '}' ||
    c == '&' || c == '*' || c == '-' && false) ||
  (match s.toList.head? with | some c => jsWs c | none => false) ||
  (match s.toList.getLast? with | some c => jsWs c | none => false)

def dumpScalarStr (s : String) : String :=
  if scalarNeedsQuote s then "\"" ++ s ++ "\"" else s

def dumpYamlPair : String × YamlVal → String
  | (k, .str s) => k ++ ": " ++ dumpScalarStr s ++ "\n"
  | (k, .num n) => k ++ ": " ++ toString n ++ "\n"
  | (k, .list items) =>
    k ++ ":\n" ++ String.join (items.map (fun it => "  - " ++ dumpScalarStr it ++ "\n"))

/-- Modelled from the spec: the external serializer capability
(`yaml.dump(frontmatter, {indent: 2, lineWidth: -1, quotingType: '"',
forceQuotes: false})`) restricted to the closed FrontmatterFields domain
(string / integer scalars and block sequences of strings; one mapping pair
per line, insertion order preserved). -/
def dumpYaml (obj : YamlObj) : String :=
  String.join (obj.map dumpYamlPair)

/-- Embedding of `frontmatterToYaml`: the dumped mapping between `---` marker lines,
followed by exactly one blank line. -/
def frontmatterToYaml (frontmatter : YamlObj) : String :=
  "---\n" ++ dumpYaml frontmatter ++ "---\n\n"

/-- Embedding of `addFrontmatterToMarkdown`: serialized header prepended to the body. -/
def addFrontmatterToMarkdown (markdown : String) (frontmatterOptions : FrontmatterOptions) : String :=
  frontmatterToYaml (generateFrontmatter frontmatterOptions) ++ markdown

/-- Unquote a scalar produced by the modelled encoder. -/
def parseItemStr (l : List Char) : String :=
  if 2 ≤ l.length ∧ l.head? = some '"' ∧ l.getLast? = some '"' then
    ((l.drop 1).dropLast).asString
  else l.asString

def digitsToNatChars (l : List Char) : Nat :=
  l.foldl (fun acc c => acc * 10 + (c.toNat - 48)) 0

/-- Modelled from the spec: scalar decoding by the external `yaml.load`
capability on the fragment the encoder can emit: quoted strings, integers,
and plain strings. -/
def parseScalarChars (l : List Char) : YamlVal :=
  if 2 ≤ l.length ∧ l.head? = some '"' ∧ l.getLast? = some '"' then
    .str ((l.drop 1).dropLast.asString)
  else
    match l with
    | '-' :: r => if allDigits r then .num (-(digitsToNatChars r : Int)) else .str l.asString
    | _ => if allDigits l then .num (digitsToNatChars l) else .str l.asString

/-- Collect the leading `  - item` lines of a block sequence. -/
def takeSeqItems : List (List Char) → List (List Char) × List (List Char)
  | [] => ([], [])
  | ln :: rest =>
    if "  - ".toList.isPrefixOf ln then
      let pr := takeSeqItems rest
      ((ln.drop 4) :: pr.1, pr.2)
    else ([], ln :: rest)

/-- Split a line at its first `": "`, yielding key and value. -/
def splitFirstColonSpace : List Char → Option (List Char × List Char)
  | [] => none
  | c :: rest =>
    if c == ':' ∧ rest.head? = some ' ' then some ([], rest.drop 1)
    else (splitFirstColonSpace rest).map (fun p => (c :: p.1, p.2))

/-- Modelled from the spec: line-oriented decoder for the YAML fragment the
modelled encoder emits (`key: scalar` pairs and `key:` followed by a block
sequence of strings).  The fuel argument bounds recursion and is always
instantiated with more lines than the input has. -/
def parseYamlLinesFuel : Nat → List (List Char) → Option YamlObj
  | 0, _ => none
  | _ + 1, [] => some []
  | fuel + 1, ln :: rest =>
    if ln = [] then parseYamlLinesFuel fuel rest
    else if ln.getLast? = some ':' then
      let key := ln.dropLast
      let pr := takeSeqItems rest
      (parseYamlLinesFuel fuel pr.2).map
        (fun obj => (key.asString, YamlVal.list (pr.1.map parseItemStr)) :: obj)
    else
      match splitFirstColonSpace ln with
      | some (k, v) =>
        (parseYamlLinesFuel fuel rest).map
          (fun obj => (k.asString, parseScalarChars v) :: obj)
      | none => none

def parseYamlLines (inner : List Char) : Option YamlObj :=
  let lines := splitOnChar '\n' inner
  parseYamlLinesFuel (lines.length + 1) lines

/-- Split at the first occurrence of the closing delimiter `\n---\n\n`,
mirroring the lazy `([\s\S]*?)` group of the frontmatter regex. -/
def findDelimSplit : List Char → Option (List Char × List Char)
  | [] => none
  | c :: rest =>
    if "\n---\n\n".toList.isPrefixOf (c :: rest) then
      some ([], (c :: rest).drop 6)
    else (findDelimSplit rest).map (fun p => (c :: p.1, p.2))

/-- Embedding of `parseFrontmatter`: match `/^---\n([\s\S]*?)\n---\n\n/`, decode the
captured header, and strip the matched prefix from the content; on no match
or a decoding failure, return a null header and the untouched input. -/
def parseFrontmatter (markdown : String) : Option YamlObj × String :=
  let l := markdown.toList
  if "---\n".toList.isPrefixOf l then
    match findDelimSplit (l.drop 4) with
    | some (inner, after) =>
      match parseYamlLines inner with
      | some fm => (some fm, after.asString)
      | none => (none, markdown)
    | none => (none, markdown)
  else (none, markdown)

/-! ## ConversionOrchestrator (`convertDocxToMarkdown`) -/

/-- External collaborators and effectful operations used by
`convertDocxToMarkdown`, passed as capabilities: the filesystem, the
structural converter (mammoth) split into its html output, its non-fatal
messages and the embedded-image stream it feeds to the image callback, the
markup flattener (turndown), and the ambient clock reading. -/
structure ConvertDeps where
  mkdir : String → Except String Unit
  readFile : String → Except String String
  writeFile : String → String → Except String Unit
  mammothHtml : String → String
  mammothMessages : String → List String
  mammothImages : String → List MammothImage
  turndown : String → String
  now : String

structure ConvMetadata where
  originalFile : String
  convertedAt : String
  deriving DecidableEq

/-- The result record of `convertDocxToMarkdown`. -/
structure DocxConversion where
  markdown : String
  images : List ImageRecord
  warnings : List String
  metadata : ConvMetadata
  deriving DecidableEq

/-- The image-persistence loop of `convertDocxToMarkdown`: each record is
written in order with `await fs.writeFile(...)`; a rejected write propagates
immediately. -/
def writeAllImages (d : ConvertDeps) : List ImageRecord → Except String Unit
  | [] => .ok ()
  | img :: rest =>
    match d.writeFile img.path img.buffer with
    | .ok _ => writeAllImages d rest
    | .error _ => d.writeFile img.path img.buffer

/-- Observation of the save loop: the image paths for which `fs.writeFile`
is actually invoked — the loop stops after the first rejected write. -/
def attemptedWrites (d : ConvertDeps) : List ImageRecord → List String
  | [] => []
  | img :: rest =>
    img.path ::
      (match d.writeFile img.path img.buffer with
       | .ok _ => attemptedWrites d rest
       | .error _ => [])

/-- The body of `convertDocxToMarkdown`'s `try` block (defaults:
`outputDir = path.dirname(inputPath)`, `extractImages = true`). -/
def convertDocxBody (d : ConvertDeps) (inputPath outputDir : String)
    (extractImages : Bool) : Except String DocxConversion := do
  d.mkdir outputDir
  if extractImages then d.mkdir (pathJoin outputDir "images") else pure ()
  let buffer ← d.readFile inputPath
  let documentName := pathBasenameExt inputPath ".docx"
  let images := if extractImages then
      createImageHandlerImages outputDir documentName (d.mammothImages buffer)
    else []
  let html := preprocessHtml (d.mammothHtml buffer)
  let markdown := postprocessMarkdown (d.turndown html)
  writeAllImages d images
  pure { markdown := markdown
         images := images
         warnings := d.mammothMessages buffer
         metadata := { originalFile := pathBasename inputPath, convertedAt := d.now } }

/-- Embedding of `convertDocxToMarkdown`: the body wrapped by the function-level
`try/catch` that rethrows any failure with added context. -/
def convertDocxToMarkdown (d : ConvertDeps) (inputPath outputDir : String)
    (extractImages : Bool) : Except String DocxConversion :=
  match convertDocxBody d inputPath outputDir extractImages with
  | .ok r => .ok r
  | .error e => .error ("Failed to convert document: " ++ e)

/-! ## Batch conversion (`convertMultipleDocuments`, `createConversionSummary`) -/

/-- The success-record shape pushed by `convertDocument` (success flag
represented by the constructor). -/
structure DocSuccessRecord where
  inputFile : String
  outputFile : String
  imagesExtracted : Nat
  warnings : List String
  deriving DecidableEq

/-- One entry of the batch `results` array: either a success record or the
`{success: false, inputFile, error}` record pushed by the catch block. -/
inductive DocResult where
  | success : DocSuccessRecord → DocResult
  | failure : String → String → DocResult
  deriving DecidableEq

def DocResult.isSuccess : DocResult → Bool
  | .success _ => true
  | .failure _ _ => false

/-- The `successRate` field: a one-decimal percentage string when the batch
is non-empty, or the numeric constant 0 for an empty batch. -/
inductive RateVal where
  | pct : String → RateVal
  | zero : RateVal
  deriving DecidableEq

/-- Rational model of `(successful / total * 100).toFixed(1)` (the source
computes on binary doubles; the values reachable in the claims are far from
rounding ties).  Rounds half up to one decimal place. -/
def toFixed1 (s t : Nat) : String :=
  let n := (2000 * s + t) / (2 * t)
  toString (n / 10) ++ "." ++ toString (n % 10)

structure ConversionSummary where
  total : Nat
  successful : Nat
  failed : Nat
  successRate : RateVal
  deriving DecidableEq

/-- Embedding of `createConversionSummary` from utils. -/
def createConversionSummary (results : List DocResult) : ConversionSummary :=
  let total := results.length
  let successful := (results.filter (fun r => r.isSuccess)).length
  let failed := (results.filter (fun r => ! r.isSuccess)).length
  { total := total, successful := successful, failed := failed,
    successRate := if 0 < total then .pct (toFixed1 successful total) else .zero }

/-- Embedding of `convertMultipleDocuments`, abstracted over the per-document conversion
(`convertDocument` with its options): each input is processed in order, a
thrown failure is caught and recorded as that document's failure entry, and
the summary is computed from the collected results. -/
def convertMultipleDocuments (convertDoc : String → Except String DocSuccessRecord)
    (inputFiles : List String) : List DocResult × ConversionSummary :=
  let results := inputFiles.map (fun f =>
    match convertDoc f with
    | .ok r => DocResult.success r
    | .error e => DocResult.failure f e)
  (results, createConversionSummary results)



/-! ## Concrete sample environments used by witnesses and counterexamples -/

/-- Two embedded PNG images as the structural converter would report them. -/
def demoImages : List MammothImage :=
  [{ contentType := "image/png", data := "AAAA" },
   { contentType := "image/png", data := "BBBB" }]

/-- A conversion environment whose storage rejects the write of the first
extracted image payload and accepts everything else. -/
def demoDepsBadWrite : ConvertDeps where
  mkdir := fun _ => .ok ()
  readFile := fun _ => .ok "docxbytes"
  writeFile := fun p _ =>
    if p = "out/images/doc-image-1.png" then .error "disk full" else .ok ()
  mammothHtml := fun _ => "<h1>Intro</h1>"
  mammothMessages := fun _ => []
  mammothImages := fun _ => demoImages
  turndown := fun h => h
  now := "2026-01-01T00:00:00.000Z"

/-- A batch step: the middle document fails, its siblings succeed. -/
def sampleConv : String → Except String DocSuccessRecord := fun f =>
  if f = "b.docx" then .error "Failed to convert document: corrupt"
  else .ok { inputFile := f, outputFile := f ++ ".md", imagesExtracted := 0, warnings := [] }

def sampleFiles : List String := ["a.docx", "b.docx", "c.docx"]


/-! ## Theorems -/

/-- C2: the claim `postprocessMarkdown` is idempotent fails on the code.
On the input `"a\n# h\nb"` one application yields `"a\n\n# h\n\nb"`, but a
second application inserts a further newline (the heading-spacing regex
`/\n(#{1,6}\s)/g` also matches the second newline of an already-present
blank line), yielding `"a\n\n\n# h\n\nb"`. -/
theorem postprocess_not_idempotent :
    postprocessMarkdown (postprocessMarkdown "a\n# h\nb") ≠
      postprocessMarkdown "a\n# h\nb" ∧
    postprocessMarkdown "a\n# h\nb" = "a\n\n# h\n\nb" ∧
    postprocessMarkdown (postprocessMarkdown "a\n# h\nb") = "a\n\n\n# h\n\nb" :=
  ⟨by decide, by decide, by decide⟩

/-- C3: a heading surrounded by five blank lines on each side is NOT
normalized to exactly one preceding blank line: the five blank lines first
collapse to one, and then the unconditional heading-spacing rule inserts an
extra newline even though a blank line is already present, leaving two blank
lines before the heading (the trailing side does get exactly one). -/
theorem heading_blank_line_normalization_bug :
    postprocessMarkdown "a\n\n\n\n\n\n# h\n\n\n\n\n\nb" = "a\n\n\n# h\n\nb" ∧
    postprocessMarkdown "a\n\n\n\n\n\n# h\n\n\n\n\n\nb" ≠ "a\n\n# h\n\nb" :=
  ⟨by decide, by decide⟩

/-- C7: composing the frontmatter fields
`{title: "T", chapter: 1, section: "1.1", objectives: ["a","b"]}` over the
body `"some body"` and parsing the result back yields exactly the composed
field set and the original body. -/
theorem frontmatter_roundtrip :
    parseFrontmatter (addFrontmatterToMarkdown "some body"
        { title := some "T", sectionVal := some "1.1", chapter := some 1,
          objectives := ["a", "b"] }) =
      (some (generateFrontmatter
        { title := some "T", sectionVal := some "1.1", chapter := some 1,
          objectives := ["a", "b"] }), "some body") ∧
    generateFrontmatter
        { title := some "T", sectionVal := some "1.1", chapter := some 1,
          objectives := ["a", "b"] } =
      [("title", .str "T"), ("section", .str "1.1"), ("chapter", .num 1),
       ("objectives", .list ["a", "b"])] :=
  ⟨by decide, by decide⟩

/-- C8 counterexample: an explicitly empty-string `section` is emitted as an
empty placeholder (`section: ""`): the guard `section !== null` is true for
`""`, so "absent or empty recognized fields are never emitted as null or
empty placeholders" fails as stated. -/
theorem empty_section_emitted :
    generateFrontmatter { title := some "T", sectionVal := some "" } =
      [("title", .str "T"), ("section", .str "")] ∧
    frontmatterToYaml (generateFrontmatter { title := some "T", sectionVal := some "" }) =
      "---\ntitle: T\nsection: \"\"\n---\n\n" :=
  ⟨by decide, by decide⟩

/-- C1 counterexample: in an environment whose storage rejects the first
image write, `convertDocxToMarkdown` does NOT complete with a warning — it
raises the fatal wrapped error, and the second image's write is never
attempted. -/
theorem image_write_warning_claim_refuted :
    convertDocxToMarkdown demoDepsBadWrite "doc.docx" "out" true =
      .error "Failed to convert document: disk full" ∧
    attemptedWrites demoDepsBadWrite (createImageHandlerImages "out" "doc" demoImages) =
      ["out/images/doc-image-1.png"] :=
  ⟨rfl, by decide⟩

/-- C4 counterexample: for a document with no headings and no caller title,
the resolved title is the constant `"Untitled Document"` (the truthy
fallback of `extractTitle`), not the title-cased filename derivation
`"My Doc"` the claim requires. -/
theorem title_fallback_counterexample :
    resolveTitle none "Just some text with no headings." "my-doc.docx" =
      "Untitled Document" ∧
    extractTitleFromFilename "my-doc.docx" = "My Doc" ∧
    resolveTitle none "Just some text with no headings." "my-doc.docx" ≠
      extractTitleFromFilename "my-doc.docx" :=
  ⟨by decide, by decide, by decide⟩


/-- Indexing lemma for the image handler: the record at position `i` is the
one produced at counter `c + i`. -/
theorem runImageHandler_get? (outputDir documentName : String) :
    ∀ (elems : List MammothImage) (c i : Nat) (h : i < elems.length),
      (runImageHandler outputDir documentName c elems).get? i =
        some (imageHandlerStep outputDir documentName (c + i) (elems.get ⟨i, h⟩))
  | [], _, i, h => by simp at h
  | el :: rest, c, 0, h => by simp [runImageHandler]
  | el :: rest, c, i + 1, h => by
    have ih := runImageHandler_get? outputDir documentName rest (c + 1) i
      (by simpa using Nat.lt_of_succ_lt_succ h)
    simpa [runImageHandler, Nat.add_comm, Nat.add_assoc, Nat.add_left_comm] using ih

theorem runImageHandler_length (outputDir documentName : String) :
    ∀ (elems : List MammothImage) (c : Nat),
      (runImageHandler outputDir documentName c elems).length = elems.length
  | [], _ => rfl
  | _ :: rest, c => by
    simp [runImageHandler, runImageHandler_length outputDir documentName rest (c + 1)]

/-- C6: for any conversion with `N` captured images, the handler produces
exactly `N` records; the record at (0-based) position `i` is the one built
at ordinal `i + 1`, carrying the filename
`documentName ++ "-image-" ++ ordinal ++ "." ++ extension` and the
placeholder `![Image ordinal](./images/filename)` — so ordinals are exactly
`1..N` in call order, dense, strictly increasing and never reused. -/
theorem image_records_ordinals (outputDir documentName : String)
    (elems : List MammothImage) (i : Nat) (h : i < elems.length) :
    (createImageHandlerImages outputDir documentName elems).length = elems.length ∧
    (createImageHandlerImages outputDir documentName elems).get? i =
      some (imageHandlerStep outputDir documentName (i + 1) (elems.get ⟨i, h⟩)) ∧
    (imageHandlerStep outputDir documentName (i + 1) (elems.get ⟨i, h⟩)).name =
      documentName ++ "-image-" ++ toString (i + 1) ++ "." ++
        imageExtension (elems.get ⟨i, h⟩).contentType ∧
    (imageHandlerStep outputDir documentName (i + 1) (elems.get ⟨i, h⟩)).placeholder =
      "![Image " ++ toString (i + 1) ++ "](./images/" ++
        (imageHandlerStep outputDir documentName (i + 1) (elems.get ⟨i, h⟩)).name ++ ")" := by
  refine ⟨runImageHandler_length outputDir documentName elems 1, ?_, rfl, rfl⟩
  have := runImageHandler_get? outputDir documentName elems 1 i h
  simpa [createImageHandlerImages, Nat.add_comm] using this

/-- Witness for C6 at a concrete conversion with two images. -/
theorem image_records_ordinals_witness :
    (createImageHandlerImages "out" "doc" demoImages).length = demoImages.length ∧
    (createImageHandlerImages "out" "doc" demoImages).get? 1 =
      some (imageHandlerStep "out" "doc" 2 (demoImages.get ⟨1, by decide⟩)) ∧
    (imageHandlerStep "out" "doc" 2 (demoImages.get ⟨1, by decide⟩)).name =
      "doc" ++ "-image-" ++ toString 2 ++ "." ++
        imageExtension (demoImages.get ⟨1, by decide⟩).contentType ∧
    (imageHandlerStep "out" "doc" 2 (demoImages.get ⟨1, by decide⟩)).placeholder =
      "![Image " ++ toString 2 ++ "](./images/" ++
        (imageHandlerStep "out" "doc" 2 (demoImages.get ⟨1, by decide⟩)).name ++ ")" :=
  image_records_ordinals "out" "doc" demoImages 1 (by decide)


/-- Splitting a result list by the success flag partitions it. -/
theorem filter_success_add_filter_failure :
    ∀ rs : List DocResult,
      (rs.filter (fun r => r.isSuccess)).length +
        (rs.filter (fun r => ! r.isSuccess)).length = rs.length
  | [] => rfl
  | r :: rest => by
    have ih := filter_success_add_filter_failure rest
    cases hr : r.isSuccess <;> simp [List.filter, hr] <;> omega

/-- C9: batch conversion is per-document isolated: the results list has one
entry per input file, the entry at index `i` is the success record or the
caught failure entry for that very file, the summary counts partition the
batch, and for a batch of 3 with 2 successes the summary reports
total=3, successful=2, failed=1, successRate="66.7". -/
theorem batch_isolation_summary (convertDoc : String → Except String DocSuccessRecord)
    (inputFiles : List String) (i : Nat) (h : i < inputFiles.length) :
    (convertMultipleDocuments convertDoc inputFiles).1.length = inputFiles.length ∧
    (convertMultipleDocuments convertDoc inputFiles).1.get? i =
      some (match convertDoc (inputFiles.get ⟨i, h⟩) with
            | .ok r => DocResult.success r
            | .error e => DocResult.failure (inputFiles.get ⟨i, h⟩) e) ∧
    (convertMultipleDocuments convertDoc inputFiles).2 =
      createConversionSummary (convertMultipleDocuments convertDoc inputFiles).1 ∧
    (convertMultipleDocuments convertDoc inputFiles).2.total = inputFiles.length ∧
    (convertMultipleDocuments convertDoc inputFiles).2.successful +
      (convertMultipleDocuments convertDoc inputFiles).2.failed = inputFiles.length ∧
    ((convertMultipleDocuments convertDoc inputFiles).2.total = 3 →
      (convertMultipleDocuments convertDoc inputFiles).2.successful = 2 →
      (convertMultipleDocuments convertDoc inputFiles).2.failed = 1 ∧
      (convertMultipleDocuments convertDoc inputFiles).2.successRate = .pct "66.7") := by
  have hlen : (convertMultipleDocuments convertDoc inputFiles).1.length = inputFiles.length := by
    simp [convertMultipleDocuments]
  have hpart := filter_success_add_filter_failure (convertMultipleDocuments convertDoc inputFiles).1
  have htot : (convertMultipleDocuments convertDoc inputFiles).2.total =
      (convertMultipleDocuments convertDoc inputFiles).2.successful +
        (convertMultipleDocuments convertDoc inputFiles).2.failed := by
    simpa [convertMultipleDocuments, createConversionSummary] using hpart.symm
  refine ⟨hlen, ?_, rfl, ?_, ?_, ?_⟩
  · show ((inputFiles.map _).get? i) = _
    rw [List.get?_map, List.get?_eq_get h]
    rfl
  · simpa [convertMultipleDocuments, createConversionSummary] using hlen
  · simpa [convertMultipleDocuments, createConversionSummary] using hpart
  · intro h3 h2
    have hfail : (convertMultipleDocuments convertDoc inputFiles).2.failed = 1 := by omega
    refine ⟨hfail, ?_⟩
    have hL : (convertMultipleDocuments convertDoc inputFiles).1.length = 3 := by
      simpa [convertMultipleDocuments, createConversionSummary] using h3
    have hS : ((convertMultipleDocuments convertDoc inputFiles).1.filter
        (fun r => r.isSuccess)).length = 2 := by
      simpa [convertMultipleDocuments, createConversionSummary] using h2
    show (createConversionSummary (convertMultipleDocuments convertDoc inputFiles).1).successRate =
      .pct "66.7"
    simp only [createConversionSummary, hL, hS]
    decide

/-- Witness for C9 at the concrete 3-document batch with one failure. -/
theorem batch_isolation_summary_witness :
    (convertMultipleDocuments sampleConv sampleFiles).1.length = sampleFiles.length ∧
    (convertMultipleDocuments sampleConv sampleFiles).1.get? 1 =
      some (match sampleConv (sampleFiles.get ⟨1, by decide⟩) with
            | .ok r => DocResult.success r
            | .error e => DocResult.failure (sampleFiles.get ⟨1, by decide⟩) e) ∧
    (convertMultipleDocuments sampleConv sampleFiles).2 =
      createConversionSummary (convertMultipleDocuments sampleConv sampleFiles).1 ∧
    (convertMultipleDocuments sampleConv sampleFiles).2.total = sampleFiles.length ∧
    (convertMultipleDocuments sampleConv sampleFiles).2.successful +
      (convertMultipleDocuments sampleConv sampleFiles).2.failed = sampleFiles.length ∧
    ((convertMultipleDocuments sampleConv sampleFiles).2.total = 3 →
      (convertMultipleDocuments sampleConv sampleFiles).2.successful = 2 →
      (convertMultipleDocuments sampleConv sampleFiles).2.failed = 1 ∧
      (convertMultipleDocuments sampleConv sampleFiles).2.successRate = .pct "66.7") :=
  batch_isolation_summary sampleConv sampleFiles 1 (by decide)


/-- Invariant: the object's first entry is the title pair with value `v` and
no later entry uses the `title` key. -/
def objHeadTitle (obj : YamlObj) (v : YamlVal) : Prop :=
  obj.head? = some ("title", v) ∧ ∀ p ∈ obj.tail, p.1 ≠ "title"

theorem objInsert_head_keep {obj : YamlObj} {k : String} {x w : YamlVal}
    (h : objHeadTitle obj w) (hk : k ≠ "title") : objHeadTitle (objInsert obj k x) w := by
  obtain ⟨h1, h2⟩ := h
  cases obj with
  | nil => simp at h1
  | cons p tl =>
    have hp : p = ("title", w) := by simpa using h1
    subst hp
    have h2' : ∀ p ∈ tl, p.1 ≠ "title" := by
      intro q hq; exact h2 q (by simpa using hq)
    unfold objInsert
    by_cases ha : ((("title", w) :: tl).any (fun q => q.1 == k)) = true
    · rw [if_pos ha]
      refine ⟨by simp [Ne.symm hk], ?_⟩
      intro q hq
      have hq' : q ∈ List.map (fun p => if (p.1 == k) = true then (k, x) else p) tl := by
        simpa [Ne.symm hk] using hq
      obtain ⟨q0, hq0, hq0e⟩ := List.mem_map.mp hq'
      by_cases hq0k : (q0.1 == k) = true
      · rw [if_pos hq0k] at hq0e
        subst hq0e
        simpa using hk
      · rw [if_neg hq0k] at hq0e
        subst hq0e
        exact h2' q0 hq0
    · rw [if_neg ha]
      refine ⟨rfl, ?_⟩
      intro q hq
      have hq' : q ∈ tl ++ [(k, x)] := by simpa using hq
      rcases List.mem_append.mp hq' with h' | h'
      · exact h2' q h'
      · simp at h'
        subst h'
        simpa using hk

theorem objInsert_head_set {obj : YamlObj} {x w : YamlVal}
    (h : objHeadTitle obj w) : objHeadTitle (objInsert obj "title" x) x := by
  obtain ⟨h1, h2⟩ := h
  cases obj with
  | nil => simp at h1
  | cons p tl =>
    have hp : p = ("title", w) := by simpa using h1
    subst hp
    have h2' : ∀ p ∈ tl, p.1 ≠ "title" := by
      intro q hq; exact h2 q (by simpa using hq)
    have ha : ((("title", w) :: tl).any (fun q => q.1 == "title")) = true := by simp
    unfold objInsert
    rw [if_pos ha]
    refine ⟨by simp, ?_⟩
    intro q hq
    have hq' : q ∈ List.map (fun p => if (p.1 == "title") = true then ("title", x) else p) tl := by
      simpa using hq
    obtain ⟨q0, hq0, hq0e⟩ := List.mem_map.mp hq'
    have hq0k : ¬ (q0.1 == "title") = true := by simpa using h2' q0 hq0
    rw [if_neg hq0k] at hq0e
    subst hq0e
    exact h2' q0 hq0

theorem foldl_objInsert_exists {fields : YamlObj} :
    ∀ {obj : YamlObj}, (∃ w, objHeadTitle obj w) →
      ∃ w, objHeadTitle (fields.foldl (fun acc p => objInsert acc p.1 p.2) obj) w := by
  induction fields with
  | nil => intro obj h; simpa using h
  | cons p rest ih =>
    intro obj h
    obtain ⟨w, hw⟩ := h
    refine ih ?_
    by_cases hk : p.1 = "title"
    · refine ⟨p.2, ?_⟩
      show objHeadTitle (objInsert obj p.1 p.2) p.2
      rw [hk]
      exact objInsert_head_set hw
    · exact ⟨w, objInsert_head_keep hw hk⟩

theorem foldl_objInsert_no_title {fields : YamlObj}
    (hf : ∀ p ∈ fields, p.1 ≠ "title") :
    ∀ {obj : YamlObj} {w : YamlVal}, objHeadTitle obj w →
      objHeadTitle (fields.foldl (fun acc p => objInsert acc p.1 p.2) obj) w := by
  induction fields with
  | nil => intro obj w h; simpa using h
  | cons p rest ih =>
    intro obj w h
    have hp : p.1 ≠ "title" := hf p (by simp)
    exact ih (fun q hq => hf q (by simp [hq])) (objInsert_head_keep h hp)

/-- The recognized-field stage keeps the title pair at the head with no
later `title` entry. -/
theorem frontmatterBase_headTitle (options : FrontmatterOptions) :
    objHeadTitle (frontmatterBase options)
      (YamlVal.str (options.title.getD "Untitled")) := by
  have h0 : objHeadTitle [("title", YamlVal.str (options.title.getD "Untitled"))]
      (YamlVal.str (options.title.getD "Untitled")) := ⟨rfl, by simp⟩
  unfold frontmatterBase
  cases hs : options.sectionVal <;> cases hc : options.chapter <;>
    simp only [hs, hc] <;> split <;>
    first
      | exact h0
      | exact objInsert_head_keep h0 (by decide)
      | exact objInsert_head_keep (objInsert_head_keep h0 (by decide)) (by decide)
      | exact objInsert_head_keep
          (objInsert_head_keep (objInsert_head_keep h0 (by decide)) (by decide)) (by decide)

/-- C10: a caller-supplied custom field whose key is `title` overrides the
recognized title in place: the composed frontmatter still begins with the
`title` key, its value is the custom one (the last custom `title` entry),
and no second `title` entry is emitted after it. -/
theorem custom_title_overrides (options : FrontmatterOptions) (v : YamlVal)
    (pre post : YamlObj)
    (hsplit : options.customFields = pre ++ ("title", v) :: post)
    (hpost : ∀ p ∈ post, p.1 ≠ "title") :
    (generateFrontmatter options).head? = some ("title", v) ∧
    ∀ p ∈ (generateFrontmatter options).tail, p.1 ≠ "title" := by
  have hres : objHeadTitle (generateFrontmatter options) v := by
    unfold generateFrontmatter
    rw [hsplit, List.foldl_append]
    obtain ⟨w, hw⟩ :=
      @foldl_objInsert_exists pre _ ⟨_, frontmatterBase_headTitle options⟩
    have hset := @objInsert_head_set _ v _ hw
    exact foldl_objInsert_no_title hpost hset
  exact hres

/-- Witness for C10: a custom `title` overrides the recognized title. -/
theorem custom_title_overrides_witness :
    (generateFrontmatter
        { title := some "Orig", customFields := [("title", YamlVal.str "X")] }).head? =
      some ("title", YamlVal.str "X") ∧
    ∀ p ∈ (generateFrontmatter
        { title := some "Orig", customFields := [("title", YamlVal.str "X")] }).tail,
      p.1 ≠ "title" :=
  custom_title_overrides _ (YamlVal.str "X") [] [] rfl (by simp)


theorem hashRun_eq_zero {l : List Char} (h : l.head? ≠ some '#') : hashRun l = 0 := by
  cases l with
  | nil => rfl
  | cons c r =>
    have hc : ¬ (c == '#') = true := by
      simp only [beq_iff_eq]
      intro he
      exact h (by simp [he])
    simp [hashRun, hc]

theorem matchH1At_none {l : List Char} (h : l.head? ≠ some '#') : matchH1At l = none := by
  cases l with
  | nil => rfl
  | cons c r =>
    have hc : ¬ (c == '#') = true := by
      simp only [beq_iff_eq]
      intro he
      exact h (by simp [he])
    simp [matchH1At, hc]

theorem matchHnAt_none {l : List Char} (h : l.head? ≠ some '#') : matchHnAt l = none := by
  simp [matchHnAt, hashRun_eq_zero h]

theorem findAtLineStarts_none (matcher : List Char → Option (List Char))
    (hm : ∀ s : List Char, s.head? ≠ some '#' → matcher s = none) :
    ∀ (l : List Char) (b : Bool), '#' ∉ l → findAtLineStarts matcher l b = none := by
  intro l
  induction l with
  | nil => intro b _; rfl
  | cons c rest ih =>
    intro b hmem
    have hc : c ≠ '#' := fun he => hmem (by simp [he])
    have hrest : '#' ∉ rest := fun hr => hmem (by simp [hr])
    have hnone : matcher (c :: rest) = none := hm _ (by simp [hc])
    cases b <;> simp [findAtLineStarts, hnone, ih _ hrest]

/-- A markdown text containing no `#` character has no heading, so
`extractTitle` returns its constant fallback. -/
theorem extractTitle_no_hash {markdown : String} (h : '#' ∉ markdown.toList) :
    extractTitle markdown = "Untitled Document" := by
  unfold extractTitle
  rw [findAtLineStarts_none matchH1At (fun s hs => matchH1At_none hs) _ _ h,
      findAtLineStarts_none matchHnAt (fun s hs => matchHnAt_none hs) _ _ h]

/-- C4 (amended): the title is the truthy caller title when present;
otherwise, for a document with no headings (no `#` at all), the title is the
constant `"Untitled Document"` produced by `extractTitle` — the title-cased
filename derivation is not consulted in that case. -/
theorem title_resolution_amended (markdown inputPath t : String)
    (ht : t ≠ "") (hnohash : '#' ∉ markdown.toList) :
    resolveTitle (some t) markdown inputPath = t ∧
    resolveTitle none markdown inputPath = "Untitled Document" := by
  constructor
  · simp [resolveTitle, jsOrStr, ht]
  · simp [resolveTitle, jsOrStr, extractTitle_no_hash hnohash]

/-- Witness for C4's amended claim at a concrete heading-less document. -/
theorem title_resolution_amended_witness :
    resolveTitle (some "Given") "plain text body" "notes.docx" = "Given" ∧
    resolveTitle none "plain text body" "notes.docx" = "Untitled Document" :=
  title_resolution_amended "plain text body" "notes.docx" "Given" (by decide) (by decide)


theorem writeAllImages_fail (d : ConvertDeps) (pre : List ImageRecord)
    (post : List ImageRecord) (bad : ImageRecord) (e : String)
    (hpre : ∀ img ∈ pre, d.writeFile img.path img.buffer = .ok ())
    (hbad : d.writeFile bad.path bad.buffer = .error e) :
    writeAllImages d (pre ++ bad :: post) = .error e := by
  induction pre with
  | nil => simp [writeAllImages, hbad]
  | cons img rest ih =>
    have h1 : d.writeFile img.path img.buffer = .ok () := hpre img (by simp)
    have ih' := ih (fun i hi => hpre i (by simp [hi]))
    simp [writeAllImages, h1, ih']

theorem attemptedWrites_fail (d : ConvertDeps) (pre : List ImageRecord)
    (post : List ImageRecord) (bad : ImageRecord) (e : String)
    (hpre : ∀ img ∈ pre, d.writeFile img.path img.buffer = .ok ())
    (hbad : d.writeFile bad.path bad.buffer = .error e) :
    attemptedWrites d (pre ++ bad :: post) = (pre ++ [bad]).map ImageRecord.path := by
  induction pre with
  | nil => simp [attemptedWrites, hbad]
  | cons img rest ih =>
    have h1 : d.writeFile img.path img.buffer = .ok () := hpre img (by simp)
    have ih' := ih (fun i hi => hpre i (by simp [hi]))
    simp [attemptedWrites, h1, ih']

/-- C1 (amended): when the environment reaches the image-save loop and the
write of one image payload fails, `convertDocxToMarkdown` does not complete
the conversion with a warning: the loop attempts exactly the writes up to
and including the failing one (later images are not attempted), and the
function raises the failure as a fatal wrapped error; no warning is added to
any returned result. -/
theorem image_write_failure_fatal (d : ConvertDeps)
    (inputPath outputDir buf : String)
    (pre post : List ImageRecord) (bad : ImageRecord) (e : String)
    (hmk1 : d.mkdir outputDir = .ok ())
    (hmk2 : d.mkdir (pathJoin outputDir "images") = .ok ())
    (hrf : d.readFile inputPath = .ok buf)
    (himgs : createImageHandlerImages outputDir (pathBasenameExt inputPath ".docx")
        (d.mammothImages buf) = pre ++ bad :: post)
    (hpre : ∀ img ∈ pre, d.writeFile img.path img.buffer = .ok ())
    (hbad : d.writeFile bad.path bad.buffer = .error e) :
    convertDocxToMarkdown d inputPath outputDir true =
      .error ("Failed to convert document: " ++ e) ∧
    attemptedWrites d (pre ++ bad :: post) = (pre ++ [bad]).map ImageRecord.path := by
  have hw := writeAllImages_fail d pre post bad e hpre hbad
  have hbody : convertDocxBody d inputPath outputDir true = .error e := by
    simp only [convertDocxBody, if_true, Bind.bind, Except.bind, hmk1, hmk2, hrf, himgs, hw]
  refine ⟨?_, attemptedWrites_fail d pre post bad e hpre hbad⟩
  simp [convertDocxToMarkdown, hbody]

/-- Witness for C1's amended claim: with storage rejecting the first image
write, the conversion aborts with a wrapped fatal error after attempting
only that first write. -/
theorem image_write_failure_fatal_witness :
    convertDocxToMarkdown demoDepsBadWrite "doc.docx" "out" true =
      .error ("Failed to convert document: " ++ "disk full") ∧
    attemptedWrites demoDepsBadWrite
        ([] ++ imageHandlerStep "out" "doc" 1 ⟨"image/png", "AAAA"⟩ ::
          [imageHandlerStep "out" "doc" 2 ⟨"image/png", "BBBB"⟩]) =
      ([] ++ [imageHandlerStep "out" "doc" 1 ⟨"image/png", "AAAA"⟩]).map ImageRecord.path :=
  image_write_failure_fatal demoDepsBadWrite "doc.docx" "out" "docxbytes"
    [] [imageHandlerStep "out" "doc" 2 ⟨"image/png", "BBBB"⟩]
    (imageHandlerStep "out" "doc" 1 ⟨"image/png", "AAAA"⟩) "disk full"
    rfl rfl rfl (by decide) (by simp) rfl


/-- C8 (amended): composing with no section, no chapter and no objectives
yields a header whose only mapping pair is the `title` key between the `---`
delimiter lines; absent recognized fields are omitted entirely, and the
closing delimiter is followed by exactly one blank line and then the body
directly.  (An explicitly empty-string section, by contrast, is emitted —
see the counterexample.) -/
theorem title_only_header_amended (t body : String) :
    generateFrontmatter { title := some t } = [("title", .str t)] ∧
    addFrontmatterToMarkdown body { title := some t } =
      "---\n" ++ ("title" ++ ": " ++ dumpScalarStr t ++ "\n") ++ "---\n\n" ++ body :=
  ⟨rfl, rfl⟩


/-! ### Lemmas about the chemical-formula parser (claim C5) -/

theorem map_succ_eq_some {o : Option Nat} {n : Nat} :
    o.map (· + 1) = some (n + 1) ↔ o = some n := by
  cases o <;> simp

theorem not_word_parts {c : Char} (hc : isWordChar c = false) :
    c.isUpper = false ∧ c.isLower = false ∧ c.isDigit = false := by
  revert hc
  unfold isWordChar Char.isAlpha
  cases c.isUpper <;> cases c.isLower <;> cases c.isDigit <;> simp

/-- A token matched in full keeps matching (with the same extent) when a
non-word character follows: `formulaLoop` stage. -/
theorem formulaLoop_append :
    ∀ {l : List Char} {st : Nat}, formulaLoop l st = some l.length →
      ∀ {c : Char} {rest : List Char}, isWordChar c = false →
        formulaLoop (l ++ c :: rest) st = some l.length := by
  intro l
  induction l with
  | nil =>
    intro st _ c rest hc
    obtain ⟨hu, hlo, hd⟩ := not_word_parts hc
    simp [formulaLoop, hu, hlo, hd, hc]
  | cons d l' ih =>
    intro st h c rest hc
    have hlen : (d :: l').length = l'.length + 1 := rfl
    show formulaLoop (d :: (l' ++ c :: rest)) st = some (l'.length + 1)
    simp only [formulaLoop] at h ⊢
    rw [hlen] at h
    by_cases hu : d.isUpper = true
    · rw [if_pos hu] at h ⊢
      rw [map_succ_eq_some] at h
      rw [ih h hc]
      rfl
    · rw [if_neg hu] at h ⊢
      by_cases hd : d.isDigit = true
      · rw [if_pos hd] at h ⊢
        rw [map_succ_eq_some] at h
        rw [ih h hc]
        rfl
      · rw [if_neg hd] at h ⊢
        by_cases hlo : st = 0 ∧ d.isLower = true
        · rw [if_pos hlo] at h ⊢
          rw [map_succ_eq_some] at h
          rw [ih h hc]
          rfl
        · rw [if_neg hlo] at h ⊢
          by_cases hw : isWordChar d = true
          · rw [if_pos hw] at h
            exact absurd h (by simp)
          · rw [if_neg hw] at h
            exact absurd (Option.some.inj h) (by omega)

/-- Same extension property for the first digit-run stage. -/
theorem afterFirstDigits_append :
    ∀ {l : List Char}, afterFirstDigits l = some l.length →
      ∀ {c : Char} {rest : List Char}, isWordChar c = false →
        afterFirstDigits (l ++ c :: rest) = some l.length := by
  intro l
  induction l with
  | nil => intro h; simp [afterFirstDigits] at h
  | cons d l' ih =>
    intro h c rest hc
    have hlen : (d :: l').length = l'.length + 1 := rfl
    show afterFirstDigits (d :: (l' ++ c :: rest)) = some (l'.length + 1)
    simp only [afterFirstDigits] at h ⊢
    rw [hlen] at h
    by_cases hd : d.isDigit = true
    · rw [if_pos hd] at h ⊢
      rw [map_succ_eq_some] at h
      rw [ih h hc]
      rfl
    · rw [if_neg hd] at h ⊢
      by_cases hu : d.isUpper = true
      · rw [if_pos hu] at h ⊢
        rw [map_succ_eq_some] at h
        rw [formulaLoop_append h hc]
        rfl
      · rw [if_neg hu] at h
        exact absurd h (by simp)

/-- Extension property for the mandatory digit group stage. -/
theorem formulaFirstDigitStart_append {l : List Char}
    (h : formulaFirstDigitStart l = some l.length)
    {c : Char} {rest : List Char} (hc : isWordChar c = false) :
    formulaFirstDigitStart (l ++ c :: rest) = some l.length := by
  cases l with
  | nil => simp [formulaFirstDigitStart] at h
  | cons e r3 =>
    show formulaFirstDigitStart (e :: (r3 ++ c :: rest)) = some (e :: r3).length
    simp only [formulaFirstDigitStart] at h ⊢
    by_cases he : e.isDigit = true
    · rw [if_pos he] at h ⊢
      rw [show (e :: r3).length = r3.length + 1 from rfl] at h ⊢
      rw [map_succ_eq_some] at h
      rw [afterFirstDigits_append h hc]
      rfl
    · rw [if_neg he] at h
      exact absurd h (by simp)

/-- Extension property for the post-uppercase stage. -/
theorem formulaFirst_append {l : List Char}
    (h : formulaFirst l = some l.length)
    {c : Char} {rest : List Char} (hc : isWordChar c = false) :
    formulaFirst (l ++ c :: rest) = some l.length := by
  cases l with
  | nil => simp [formulaFirst] at h
  | cons x r2 =>
    show formulaFirst (x :: (r2 ++ c :: rest)) = some (x :: r2).length
    simp only [formulaFirst] at h ⊢
    by_cases hx : x.isLower = true
    · rw [if_pos hx] at h ⊢
      rw [show (x :: r2).length = r2.length + 1 from rfl] at h ⊢
      rw [map_succ_eq_some] at h
      rw [formulaFirstDigitStart_append h hc]
      rfl
    · rw [if_neg hx] at h ⊢
      exact @formulaFirstDigitStart_append (x :: r2) h c rest hc

/-- A fully-matching formula token keeps matching with the same extent when
a non-word character follows. -/
theorem matchFormulaLen_append {l : List Char} (h : matchFormulaLen l = some l.length)
    {c : Char} {rest : List Char} (hc : isWordChar c = false) :
    matchFormulaLen (l ++ c :: rest) = some l.length := by
  cases l with
  | nil => simp [matchFormulaLen] at h
  | cons d l0 =>
    show matchFormulaLen (d :: (l0 ++ c :: rest)) = some (d :: l0).length
    simp only [matchFormulaLen] at h ⊢
    by_cases hu : d.isUpper = true
    · rw [if_pos hu] at h ⊢
      rw [show (d :: l0).length = l0.length + 1 from rfl] at h ⊢
      rw [map_succ_eq_some] at h
      rw [formulaFirst_append h hc]
      rfl
    · rw [if_neg hu] at h
      exact absurd h (by simp)


/-- Characters consumed by a full `formulaLoop` match are alphanumeric. -/
theorem formulaLoop_chars :
    ∀ {l : List Char} {st : Nat}, formulaLoop l st = some l.length →
      ∀ c ∈ l, (c.isUpper || c.isLower || c.isDigit) = true := by
  intro l
  induction l with
  | nil => intro st _ c hc; simp at hc
  | cons d l' ih =>
    intro st h c hc
    have hlen : (d :: l').length = l'.length + 1 := rfl
    simp only [formulaLoop, hlen] at h
    rcases List.mem_cons.mp hc with rfl | hmem
    · by_cases hu : c.isUpper = true
      · simp [hu]
      · rw [if_neg hu] at h
        by_cases hd : c.isDigit = true
        · simp [hd]
        · rw [if_neg hd] at h
          by_cases hlo : st = 0 ∧ c.isLower = true
          · simp [hlo.2]
          · rw [if_neg hlo] at h
            by_cases hw : isWordChar c = true
            · rw [if_pos hw] at h
              exact absurd h (by simp)
            · rw [if_neg hw] at h
              exact absurd (Option.some.inj h) (by omega)
    · by_cases hu : d.isUpper = true
      · rw [if_pos hu, map_succ_eq_some] at h
        exact ih h c hmem
      · rw [if_neg hu] at h
        by_cases hd : d.isDigit = true
        · rw [if_pos hd, map_succ_eq_some] at h
          exact ih h c hmem
        · rw [if_neg hd] at h
          by_cases hlo : st = 0 ∧ d.isLower = true
          · rw [if_pos hlo, map_succ_eq_some] at h
            exact ih h c hmem
          · rw [if_neg hlo] at h
            by_cases hw : isWordChar d = true
            · rw [if_pos hw] at h
              exact absurd h (by simp)
            · rw [if_neg hw] at h
              exact absurd (Option.some.inj h) (by omega)

theorem afterFirstDigits_chars :
    ∀ {l : List Char}, afterFirstDigits l = some l.length →
      ∀ c ∈ l, (c.isUpper || c.isLower || c.isDigit) = true := by
  intro l
  induction l with
  | nil => intro _ c hc; simp at hc
  | cons d l' ih =>
    intro h c hc
    have hlen : (d :: l').length = l'.length + 1 := rfl
    simp only [afterFirstDigits, hlen] at h
    rcases List.mem_cons.mp hc with rfl | hmem
    · by_cases hd : c.isDigit = true
      · simp [hd]
      · rw [if_neg hd] at h
        by_cases hu : c.isUpper = true
        · simp [hu]
        · rw [if_neg hu] at h
          exact absurd h (by simp)
    · by_cases hd : d.isDigit = true
      · rw [if_pos hd, map_succ_eq_some] at h
        exact ih h c hmem
      · rw [if_neg hd] at h
        by_cases hu : d.isUpper = true
        · rw [if_pos hu, map_succ_eq_some] at h
          exact formulaLoop_chars h c hmem
        · rw [if_neg hu] at h
          exact absurd h (by simp)

theorem formulaFirstDigitStart_chars {l : List Char}
    (h : formulaFirstDigitStart l = some l.length) :
    ∀ c ∈ l, (c.isUpper || c.isLower || c.isDigit) = true := by
  cases l with
  | nil => intro c hc; simp at hc
  | cons e r3 =>
    intro c hc
    simp only [formulaFirstDigitStart, show (e :: r3).length = r3.length + 1 from rfl] at h
    by_cases he : e.isDigit = true
    · rw [if_pos he, map_succ_eq_some] at h
      rcases List.mem_cons.mp hc with rfl | hmem
      · simp [he]
      · exact afterFirstDigits_chars h c hmem
    · rw [if_neg he] at h
      exact absurd h (by simp)

theorem formulaFirst_chars {l : List Char} (h : formulaFirst l = some l.length) :
    ∀ c ∈ l, (c.isUpper || c.isLower || c.isDigit) = true := by
  cases l with
  | nil => intro c hc; simp at hc
  | cons x r2 =>
    intro c hc
    simp only [formulaFirst, show (x :: r2).length = r2.length + 1 from rfl] at h
    by_cases hx : x.isLower = true
    · rw [if_pos hx, map_succ_eq_some] at h
      rcases List.mem_cons.mp hc with rfl | hmem
      · simp [hx]
      · exact formulaFirstDigitStart_chars h c hmem
    · rw [if_neg hx] at h
      exact @formulaFirstDigitStart_chars (x :: r2) h c hc

theorem matchFormulaLen_chars {l : List Char} (h : matchFormulaLen l = some l.length) :
    ∀ c ∈ l, (c.isUpper || c.isLower || c.isDigit) = true := by
  cases l with
  | nil => intro c hc; simp at hc
  | cons d l0 =>
    intro c hc
    simp only [matchFormulaLen, show (d :: l0).length = l0.length + 1 from rfl] at h
    by_cases hu : d.isUpper = true
    · rw [if_pos hu, map_succ_eq_some] at h
      rcases List.mem_cons.mp hc with rfl | hmem
      · simp [hu]
      · exact formulaFirst_chars h c hmem
    · rw [if_neg hu] at h
      exact absurd h (by simp)


/-! ### Scanner lemmas (claim C5) -/

/-- If the pattern matches at no (non-empty) suffix, the global rewrite is
the identity. -/
theorem scanStep_id (step : List Char → Option (List Char × Nat)) :
    ∀ l : List Char, (∀ s, s ≠ [] → s <:+ l → step s = none) →
      scanStep step l 0 = l := by
  intro l
  induction l with
  | nil => intro _; rfl
  | cons c rest ih =>
    intro h
    have hc : step (c :: rest) = none := h _ (by simp) (List.suffix_refl _)
    have ih' := ih (fun s hne hs => h s hne (hs.trans (List.suffix_cons c rest)))
    simp [scanStep, hc, ih']

theorem newlineRun_eq_zero {l : List Char} (h : l.head? ≠ some '\n') :
    newlineRun l = 0 := by
  cases l with
  | nil => rfl
  | cons c r =>
    have hc : ¬ (c == '\n') = true := by
      simp only [beq_iff_eq]
      intro he
      exact h (by simp [he])
    simp [newlineRun, hc]

theorem step1_none {l : List Char} (h : l.head? ≠ some '\n') : step1 l = none := by
  simp [step1, newlineRun_eq_zero h]

theorem step2_none {l : List Char} (h : l.head? ≠ some '\n') : step2 l = none := by
  cases l with
  | nil => rfl
  | cons c r =>
    have hc : ¬ (c == '\n') = true := by
      simp only [beq_iff_eq]
      intro he
      exact h (by simp [he])
    simp [step2, hc]

theorem step3_none {l : List Char} (h : l.head? ≠ some '#') : step3 l = none := by
  simp [step3, hashRun_eq_zero h]

theorem step4_none {l : List Char} (h : l.head? ≠ some '\n') : step4 l = none := by
  cases l with
  | nil => rfl
  | cons c r =>
    have hc : ¬ (c == '\n') = true := by
      simp only [beq_iff_eq]
      intro he
      exact h (by simp [he])
    simp [step4, hc]

theorem underDigits_none {l : List Char} (h : l.head? ≠ some '_') :
    underDigits l = none := by
  cases l with
  | nil => rfl
  | cons c r =>
    have hc : ¬ (c == '_') = true := by
      simp only [beq_iff_eq]
      intro he
      exact h (by simp [he])
    simp [underDigits, hc]

theorem step5_none {l : List Char} (h : '_' ∉ l) : step5 l = none := by
  cases l with
  | nil => rfl
  | cons c r =>
    by_cases hu : c.isUpper = true
    · cases r with
      | nil => simp [step5, hu]
      | cons x r2 =>
        have hx' : x ≠ '_' := fun he => h (by simp [he])
        by_cases hx : x.isLower = true
        · have hr2 : underDigits r2 = none := by
            apply underDigits_none
            cases r2 with
            | nil => simp
            | cons y r3 =>
              have hy : y ≠ '_' := fun he => h (by simp [he])
              simp [hy]
          simp [step5, hu, hx, hr2]
        · have hr : underDigits (x :: r2) = none := underDigits_none (by simp [hx'])
          simp [step5, hu, hx, hr]
    · simp [step5, hu]

theorem matchFormulaLen_none_of_not_upper {c : Char} {r : List Char}
    (h : c.isUpper = false) : matchFormulaLen (c :: r) = none := by
  simp [matchFormulaLen, h]

theorem step6_none_of_not_upper {prev : Option Char} {c : Char} {r : List Char}
    (h : c.isUpper = false) : step6 prev (c :: r) = none := by
  cases prev <;> simp [step6, matchFormulaLen_none_of_not_upper h]

/-- Last character of a walked-over prefix, used as the `prev` state. -/
def lastOr : List Char → Option Char → Option Char
  | [], p => p
  | c :: r, _ => lastOr r (some c)

theorem scanStepP_skip (step : Option Char → List Char → Option (List Char × Nat)) :
    ∀ (l1 l2 : List Char) (prev : Option Char),
      scanStepP step (l1 ++ l2) prev l1.length = scanStepP step l2 (lastOr l1 prev) 0 := by
  intro l1
  induction l1 with
  | nil => intro l2 prev; rfl
  | cons c l1' ih =>
    intro l2 prev
    show scanStepP step (c :: (l1' ++ l2)) prev (l1'.length + 1) = _
    rw [show scanStepP step (c :: (l1' ++ l2)) prev (l1'.length + 1) =
        scanStepP step (l1' ++ l2) (some c) l1'.length from rfl]
    exact ih l2 (some c)

/-- Rule-6 scanning walks over a prefix containing no uppercase letter. -/
theorem scanStepP_step6_walk :
    ∀ (l1 : List Char), (∀ c ∈ l1, c.isUpper = false) →
      ∀ (l2 : List Char) (prev : Option Char),
        scanStepP step6 (l1 ++ l2) prev 0 =
          l1 ++ scanStepP step6 l2 (lastOr l1 prev) 0 := by
  intro l1
  induction l1 with
  | nil => intro _ l2 prev; rfl
  | cons c l1' ih =>
    intro h l2 prev
    have hc : step6 prev (c :: (l1' ++ l2)) = none :=
      step6_none_of_not_upper (h c (by simp))
    show scanStepP step6 (c :: (l1' ++ l2)) prev 0 = _
    simp only [scanStepP, hc]
    rw [ih (fun d hd => h d (by simp [hd])) l2 (some c)]
    rfl

/-- Rule-6 scanning is the identity on text with no uppercase letter. -/
theorem scanStepP_step6_id (l : List Char) (h : ∀ c ∈ l, c.isUpper = false)
    (prev : Option Char) : scanStepP step6 l prev 0 = l := by
  have := scanStepP_step6_walk l h [] prev
  simpa [scanStepP] using this


theorem jsTrim_id {l : List Char} (h1 : ∀ c, l.head? = some c → jsWs c = false)
    (h2 : ∀ c, l.getLast? = some c → jsWs c = false) : jsTrim l = l := by
  cases l with
  | nil => rfl
  | cons c r =>
    have hc : jsWs c = false := h1 c rfl
    have e1 : (c :: r).dropWhile jsWs = c :: r := by
      simp [List.dropWhile_cons, hc]
    show (((c :: r).dropWhile jsWs).reverse.dropWhile jsWs).reverse = c :: r
    rw [e1]
    cases hr : (c :: r).reverse with
    | nil => exact absurd hr (by simp)
    | cons d rr =>
      have hd : (c :: r).getLast? = some d := by
        rw [← List.head?_reverse, hr]
        rfl
      have hdw : jsWs d = false := h2 d hd
      have e2 : (d :: rr).dropWhile jsWs = d :: rr := by
        simp [List.dropWhile_cons, hdw]
      calc ((d :: rr).dropWhile jsWs).reverse
          = (d :: rr).reverse := by rw [e2]
        _ = (c :: r).reverse.reverse := by rw [hr]
        _ = c :: r := List.reverse_reverse _

/-- A token has the chemical-formula shape exactly when the formula regex
matches it in full. -/
def formulaShaped (t : String) : Bool :=
  matchFormulaLen t.toList == some t.toList.length

/-- Alphanumeric characters are not one of the scanner trigger characters. -/
theorem alnum_ne_triggers {c : Char} (h : (c.isUpper || c.isLower || c.isDigit) = true) :
    c ≠ '\n' ∧ c ≠ '#' ∧ c ≠ '_' := by
  refine ⟨?_, ?_, ?_⟩ <;> (intro he; subst he; revert h; decide)

/-- C5: a standalone chemical-formula-shaped token surrounded by plain text
is wrapped in inline math delimiters by `postprocessMarkdown`:
`"text " ++ t ++ " more"` becomes `"text $" ++ t ++ "$ more"` for every
token `t` matching the formula shape (this includes same-shaped
non-chemical tokens such as `A1B2`, an accepted heuristic false positive). -/
theorem formula_token_wrapped (t : String) (h : formulaShaped t = true) :
    postprocessMarkdown ("text " ++ t ++ " more") = "text $" ++ t ++ "$ more" := by
  have hm : matchFormulaLen t.toList = some t.toList.length := by
    have := of_decide_eq_true (by simpa [formulaShaped] using h)
    exact this
  have hchars := matchFormulaLen_chars hm
  have hL : ("text " ++ t ++ " more").toList =
      "text ".toList ++ t.toList ++ " more".toList := by
    show ("text " ++ t ++ " more").data = "text ".data ++ t.data ++ " more".data
    rw [String.data_append, String.data_append]
  have hlit1 : ∀ c ∈ "text ".toList, c ≠ '\n' ∧ c ≠ '#' ∧ c ≠ '_' := by decide
  have hlit2 : ∀ c ∈ " more".toList, c ≠ '\n' ∧ c ≠ '#' ∧ c ≠ '_' := by decide
  have hmem : ∀ c ∈ "text ".toList ++ t.toList ++ " more".toList,
      c ≠ '\n' ∧ c ≠ '#' ∧ c ≠ '_' := by
    intro c hc
    rcases List.mem_append.mp hc with hc1 | hc2
    · rcases List.mem_append.mp hc1 with hc0 | hcT
      · exact hlit1 c hc0
      · exact alnum_ne_triggers (hchars c hcT)
    · exact hlit2 c hc2
  have hsfx : ∀ s : List Char, s ≠ [] →
      s <:+ "text ".toList ++ t.toList ++ " more".toList →
      s.head? ≠ some '\n' ∧ s.head? ≠ some '#' ∧ '_' ∉ s := by
    intro s hne hs
    refine ⟨?_, ?_, ?_⟩
    · cases s with
      | nil => simp
      | cons a s' =>
        intro hh
        have ha : a = '\n' := by simpa using hh
        have : a ∈ "text ".toList ++ t.toList ++ " more".toList :=
          hs.subset (by simp)
        exact (hmem a this).1 ha
    · cases s with
      | nil => simp
      | cons a s' =>
        intro hh
        have ha : a = '#' := by simpa using hh
        have : a ∈ "text ".toList ++ t.toList ++ " more".toList :=
          hs.subset (by simp)
        exact (hmem a this).2.1 ha
    · intro hu
      have : '_' ∈ "text ".toList ++ t.toList ++ " more".toList := hs.subset hu
      exact (hmem _ this).2.2 rfl
  have e1 : applyRule1 ("text ".toList ++ t.toList ++ " more".toList) = _ :=
    scanStep_id step1 _ (fun s hne hs => step1_none (hsfx s hne hs).1)
  have e2 : applyRule2 ("text ".toList ++ t.toList ++ " more".toList) = _ :=
    scanStep_id step2 _ (fun s hne hs => step2_none (hsfx s hne hs).1)
  have e3 : applyRule3 ("text ".toList ++ t.toList ++ " more".toList) = _ :=
    scanStep_id step3 _ (fun s hne hs => step3_none (hsfx s hne hs).2.1)
  have e4 : applyRule4 ("text ".toList ++ t.toList ++ " more".toList) = _ :=
    scanStep_id step4 _ (fun s hne hs => step4_none (hsfx s hne hs).1)
  have e5 : applyRule5 ("text ".toList ++ t.toList ++ " more".toList) = _ :=
    scanStep_id step5 _ (fun s hne hs => step5_none (hsfx s hne hs).2.2)
  -- rule 6 wraps the token
  obtain ⟨tc, T', hTc⟩ : ∃ c T', t.toList = c :: T' := by
    cases hT0 : t.toList with
    | nil => rw [hT0] at hm; simp [matchFormulaLen] at hm
    | cons a b => exact ⟨a, b, rfl⟩
  have hsp : isWordChar ' ' = false := by decide
  have hmatch : matchFormulaLen (t.toList ++ " more".toList) = some t.toList.length := by
    rw [show " more".toList = ' ' :: "more".toList from rfl]
    exact matchFormulaLen_append hm hsp
  have hstep : step6 (some ' ') (t.toList ++ " more".toList) =
      some ('$' :: t.toList ++ ['$'], t.toList.length - 1) := by
    simp only [step6, hmatch]
    rw [List.take_left]
    simp [isWordChar, Char.isAlpha]
  have e6 : applyRule6 ("text ".toList ++ t.toList ++ " more".toList) =
      "text ".toList ++ (('$' :: t.toList ++ ['$']) ++ " more".toList) := by
    show scanStepP step6 ("text ".toList ++ t.toList ++ " more".toList) none 0 = _
    rw [List.append_assoc]
    rw [scanStepP_step6_walk "text ".toList (by decide) _ none]
    congr 1
    rw [show lastOr "text ".toList none = some ' ' from rfl]
    rw [hTc] at hstep ⊢
    rw [show (tc :: T') ++ " more".toList = tc :: (T' ++ " more".toList) from rfl]
    show scanStepP step6 (tc :: (T' ++ " more".toList)) (some ' ') 0 = _
    rw [show scanStepP step6 (tc :: (T' ++ " more".toList)) (some ' ') 0 =
        (match step6 (some ' ') (tc :: (T' ++ " more".toList)) with
         | some (emit, k) => emit ++ scanStepP step6 (T' ++ " more".toList) (some tc) k
         | none => tc :: scanStepP step6 (T' ++ " more".toList) (some tc) 0) from rfl]
    rw [show step6 (some ' ') (tc :: (T' ++ " more".toList)) =
        some ('$' :: (tc :: T') ++ ['$'], (tc :: T').length - 1) from hstep]
    show ('$' :: (tc :: T') ++ ['$']) ++
        scanStepP step6 (T' ++ " more".toList) (some tc) T'.length = _
    rw [scanStepP_skip]
    rw [scanStepP_step6_id " more".toList (by decide)]
  -- assemble
  show (jsTrim (applyRule6 (applyRule5 (applyRule4 (applyRule3 (applyRule2
      (applyRule1 ("text " ++ t ++ " more").toList))))))).asString = _
  rw [hL, e1, e2, e3, e4, e5, e6]
  have htr : jsTrim ("text ".toList ++ (('$' :: t.toList ++ ['$']) ++ " more".toList)) =
      "text ".toList ++ (('$' :: t.toList ++ ['$']) ++ " more".toList) := by
    apply jsTrim_id
    · intro c hc
      have ht' : 't' = c := by
        rw [show "text ".toList ++ (('$' :: t.toList ++ ['$']) ++ " more".toList) =
            't' :: ("ext ".toList ++ (('$' :: t.toList ++ ['$']) ++ " more".toList))
          from rfl] at hc
        simpa using hc
      subst ht'
      decide
    · intro c hc
      rw [List.getLast?_append_of_ne_nil _ (by simp)] at hc
      rw [List.getLast?_append_of_ne_nil _ (by simp)] at hc
      have he' : 'e' = c := by
        rw [show (" more".toList : List Char).getLast? = some 'e' from rfl] at hc
        simpa using hc
      subst he'
      decide
  rw [htr]
  apply String.ext
  show "text ".data ++ (('$' :: t.data ++ ['$']) ++ " more".data) =
    ("text $" ++ t ++ "$ more").data
  rw [String.data_append, String.data_append]
  rw [show ("text $").data = "text ".data ++ ['$'] from rfl]
  rw [show ("$ more").data = '$' :: " more".data from rfl]
  simp

/-- Witness for C5 at the concrete tokens `H2O` and `A1B2`. -/
theorem formula_token_wrapped_witness :
    postprocessMarkdown ("text " ++ "H2O" ++ " more") = "text $" ++ "H2O" ++ "$ more" ∧
    postprocessMarkdown ("text " ++ "A1B2" ++ " more") = "text $" ++ "A1B2" ++ "$ more" :=
  ⟨formula_token_wrapped "H2O" (by decide), formula_token_wrapped "A1B2" (by decide)⟩

end TextTools
